import Mathlib

/-!
Shallow embedding of `src/extrapolator.py` (class `approximator`) over exact
rational arithmetic.  The mutable attribute `self.deltas` (a Python list of
`(value, time)` pairs) is modelled as a `List Rank`; destructive methods
become functions from the old rank table to the new one.  A Python method
that can return `None` is modelled with `Option`; methods whose failure is
an uncaught `IndexError` are also modelled with `Option` and the relevant
spot is commented.
-/

namespace PolyApprox

/-- One entry of `approximator.deltas`: a `(value, time)` pair. -/
abbrev Rank := ℚ × ℚ

/-- The loop body of `approximator.approximate`: walks the existing ranks
    (oldest rank first), carrying the freshly computed delta `cur` for the
    current rank, the loop index `i`, and the running `num_independ` value
    `ni`.  Returns the list of newly computed deltas (ranks `1..`) together
    with the final `num_independ`, or `none` on a zero time delta
    (`if delta_t == 0: return None`). -/
def approxStep (time0 : ℚ) : ℚ → Nat → Nat → List Rank → Option (List ℚ × Nat)
  | _, _, ni, [] => some ([], ni)
  | cur, i, ni, (v, t) :: rest =>
    if time0 - t = 0 then none
    else
      let dv := cur - v
      let nd := dv / (time0 - t)
      match approxStep time0 nd (i + 1) (if dv = 0 then ni else i + 2) rest with
      | none => none
      | some (tl, nf) => some (nd :: tl, nf)

/-- `approximator.approximate(val0, time0)`.  The result pairs the rank table
    after the call with the returned value: `none` models Python's `return
    None`, which happens before `self.deltas` is reassigned, so on failure
    the table component is the unchanged input. -/
def approximate (m : List Rank) (val0 time0 : ℚ) : List Rank × Option Int :=
  match approxStep time0 val0 0 1 m with
  | none => (m, none)
  | some (nds, ni) =>
    let newDeltas := (val0 :: nds).zip (time0 :: m.map Prod.snd)
    (newDeltas, some ((newDeltas.length : Int) - (ni : Int)))

/-- The reverse scan of `approximator.num_deltas` over `self.deltas[::-1]`:
    `i` is the enumeration index, `len` the full table length. -/
def numScanAux (mv : ℚ) (len : Nat) : Nat → List Rank → Nat
  | _, [] => 0
  | i, (v, _) :: rest => if mv < |v| then len - i else numScanAux mv len (i + 1) rest

/-- `approximator.num_deltas(min_val)`: plain length when `min_val is None`,
    otherwise the count after trimming trailing ranks of magnitude
    `<= min_val`. -/
def num_deltas (m : List Rank) (min_val : Option ℚ) : Nat :=
  match min_val with
  | none => m.length
  | some mv => numScanAux mv m.length 0 m.reverse

/-- The loop of `approximator.rewind`, reading the pre-call rank table from
    the front (the loop mutates index `i` only after reading it, and reads
    index `i + 1` before mutating it, so every read sees an old value).
    The final singleton is dropped (`self.deltas = self.deltas[:-1]`). -/
def rewindAux (time0 : ℚ) : List Rank → List Rank
  | [] => []
  | [_] => []
  | (v, _) :: r :: rest =>
    (v - r.1 * (time0 - r.2), r.2) :: rewindAux time0 (r :: rest)

/-- `approximator.rewind()`.  On an empty table Python raises `IndexError`
    at `self.deltas[0]`; the claims only invoke `rewind` on non-empty
    tables, where this model is exact. -/
def rewind (m : List Rank) : List Rank :=
  match m with
  | [] => []
  | (_, t0) :: _ => rewindAux t0 m

/-- New values written by the loop of `approximator.extrapolate`: the loop
    runs from the second-highest rank down to rank 0 and reads index `i + 1`
    after it has been updated, so the new value of rank `i` is
    `old[i].value + new[i+1].value * (time0 - old[i].time)`; the top value
    is untouched.  Computed by structural recursion from the tail. -/
def extraVals (time0 : ℚ) : List Rank → List ℚ
  | [] => []
  | [(v, _)] => [v]
  | (v, t) :: r :: rest =>
    let tail := extraVals time0 (r :: rest)
    (v + tail.headD 0 * (time0 - t)) :: tail

/-- `approximator.extrapolate(time0, keep_time)`: `none` on an empty table;
    otherwise returns the new table and the returned rank-0 value.  The new
    times are `__next_times(time0)` truncated to the table length (times
    shift up one rank); with `keep_time` the top entry keeps its original
    time instead. -/
def extrapolate (m : List Rank) (time0 : ℚ) (keep_time : Bool) : Option (List Rank × ℚ) :=
  match m with
  | [] => none
  | _ :: _ =>
    let times := m.map Prod.snd
    let nts := (time0 :: times).take m.length
    let new_times := if keep_time then nts.dropLast ++ [times.getLastD time0] else nts
    let vals := extraVals time0 m
    some (vals.zip new_times, vals.headD 0)

/-- The loop of `approximator.make_derivs`: for each index `i` in
    `range(delta_rank + 1)` (modelled as countdown `fuel` with
    `i + fuel = delta_rank + 1`), extrapolate to `time` whenever
    `self.deltas[i][1] != time`.  An out-of-range index would raise
    `IndexError` in Python; with the default `delta_rank` it cannot occur,
    and it is mapped to `none` here. -/
def makeDerivsAux (time : ℚ) : Nat → Nat → List Rank → Option (List Rank)
  | _, 0, m => some m
  | i, fuel + 1, m =>
    match m[i]? with
    | none => none
    | some (_, t) =>
      if t = time then makeDerivsAux time (i + 1) fuel m
      else
        match extrapolate m time false with
        | none => none
        | some (m1, _) => makeDerivsAux time (i + 1) fuel m1

/-- `approximator.make_derivs(time)` with an explicit `time` argument and the
    default `delta_rank = len(self.deltas) - 1`.  Python returns `False`
    when `delta_rank < 0`, i.e. on an empty table; success returns the
    converted table. -/
def make_derivs (m : List Rank) (time : ℚ) : Option (List Rank) :=
  if m.length = 0 then none
  else makeDerivsAux time 0 m.length m

/-- `approximator.make_derivs` with Python's `time=None` defaulting: the
    target time is `self.deltas[0][1]` (an `IndexError` on an empty table,
    modelled as `none`). -/
def make_derivsOpt (m : List Rank) (time : Option ℚ) : Option (List Rank) :=
  match time, m with
  | none, [] => none
  | none, (_, t) :: _ => make_derivs m t
  | some t, _ => make_derivs m t

/-- `approximator.get_poly_coefs(time)`: the rank values after
    `make_derivs(time)`, or `none` when that fails. -/
def get_poly_coefs (m : List Rank) (time : ℚ) : Option (List ℚ) :=
  (make_derivs m time).map (List.map Prod.fst)

/-- `approximator.from_poly_coefs(coefs, time)`: one rank per coefficient,
    all sharing `time`. -/
def from_poly_coefs (coefs : List ℚ) (time : ℚ) : List Rank :=
  coefs.map (fun c => (c, time))

/-- The comprehension `[(v * (i + 1), t) for i, (v, t) in enumerate(...)]`
    of `approximator.differentiate`, with explicit index carry. -/
def scaleUp : Nat → List Rank → List Rank
  | _, [] => []
  | i, (v, t) :: rest => (v * (i + 1), t) :: scaleUp (i + 1) rest

/-- The comprehension `[(v / (i + 1), t) for i, (v, t) in enumerate(...)]`
    of `approximator.integrate`, with explicit index carry. -/
def scaleDown : Nat → List Rank → List Rank
  | _, [] => []
  | i, (v, t) :: rest => (v / (i + 1), t) :: scaleDown (i + 1) rest

/-- `approximator.differentiate(time0)`: `make_derivs`, then drop rank 0 and
    rescale rank `i + 1` by `i + 1`.  Python returns `False` on failure and
    `True` plus the mutated table on success. -/
def differentiate (m : List Rank) (time0 : Option ℚ) : Option (List Rank) :=
  (make_derivsOpt m time0).map (fun m1 => scaleUp 0 m1.tail)

/-- `approximator.integrate(val0, time0)`: `make_derivs`, rescale rank `i`
    by `1 / (i + 1)`, and put a new rank `(val0, self.deltas[0][1])` in
    front. -/
def integrate (m : List Rank) (val0 : ℚ) (time0 : Option ℚ) : Option (List Rank) :=
  (make_derivsOpt m time0).map (fun m1 => (val0, (m1.headD (0, 0)).2) :: scaleDown 0 m1)

/-- The `zip` loop of `approximator.__add__`: pairwise sums while both
    tables last, aborting with `none` at the first time mismatch. -/
def zipAddAux : List Rank → List Rank → Option (List Rank)
  | [], _ => some []
  | _, [] => some []
  | (v, t) :: r1, (v1, t1) :: r2 =>
    if t ≠ t1 then none
    else (zipAddAux r1 r2).map (fun tl => (v + v1, t) :: tl)

/-- `approximator.__add__`: the zipped sums, then — when the lengths differ —
    the longer operand's remainder appended unchanged. -/
def addA (a b : List Rank) : Option (List Rank) :=
  match zipAddAux a b with
  | none => none
  | some res =>
    if a.length ≠ b.length then
      let rem := if a.length > b.length then a else b
      some (res ++ rem.drop res.length)
    else some res

/-- `approximator.__neg__`: negate every rank value, keep the times. -/
def negA (m : List Rank) : List Rank :=
  m.map (fun r => (-r.1, r.2))

/-- `approximator.__sub__`: `self.__add__(obj.__neg__())`. -/
def subA (a b : List Rank) : Option (List Rank) :=
  addA a (negA b)

/-- Python slicing `m[:k]` for an optional, possibly negative bound, as used
    by `approximator.reduce` (`self.deltas[:max_rank]`). -/
def pyslice (m : List Rank) (k : Option Int) : List Rank :=
  match k with
  | none => m
  | some k => if 0 ≤ k then m.take k.toNat else m.take (m.length - (-k).toNat)

/-- The magnitude `reduce` compares against `min_val`: the rank-`i` value,
    multiplied by `i!` when `as_deriv` is set. -/
def rankMag (m : List Rank) (as_deriv : Bool) (i : Nat) : ℚ :=
  let v := (m.getD i (0, 0)).1
  if as_deriv then v * (Nat.factorial i : ℚ) else v

/-- The `for i in reversed(range(1, len(self.deltas[:max_rank])))` scan of
    `approximator.reduce`, started at the top index of the slice: the new
    `max_rank` is `i + 1` at the first index (from the top, never below
    index 1) whose magnitude exceeds `min_val`, else `0`. -/
def reduceScan (mv : ℚ) (ad : Bool) (m : List Rank) : Nat → Nat
  | 0 => 0
  | i + 1 => if mv < |rankMag m ad (i + 1)| then i + 2 else reduceScan mv ad m i

/-- `approximator.reduce(max_rank, min_val, as_deriv, keep_time)`: returns
    the new table and `len(self.deltas)`.  `none` models the two uncaught
    `IndexError`s: `self.deltas[-1]` on an empty table when `keep_time` is
    set, before or after the cut. -/
def reduce (m : List Rank) (max_rank : Option Int) (min_val : Option ℚ)
    (as_deriv keep_time : Bool) : Option (List Rank × Nat) :=
  if keep_time = true ∧ m = [] then none
  else
    let last_time := (m.getLastD (0, 0)).2
    let mr : Option Int :=
      match min_val with
      | none => max_rank
      | some mv => some ((reduceScan mv as_deriv m ((pyslice m max_rank).length - 1) : Nat) : Int)
    let d := pyslice m mr
    if keep_time then
      match d.getLast? with
      | none => none
      | some last => some (d.dropLast ++ [(last.1, last_time)], d.length)
    else some (d, d.length)

/-- The rank table after feeding `f(x) = x^3` at times `0, 1, 2, 2.5, 4`
    (in order) into `approximate`, starting from an empty model
    (`15.625 = 125/8`, `2.5 = 5/2`). -/
def c2Model : List Rank :=
  (approximate ((approximate ((approximate ((approximate ((approximate [] 0 0).1)
    1 1).1) 8 2).1) (125 / 8) (5 / 2)).1) 64 4).1

/-! ### Helper lemmas about `approximate` -/

/-- If some rank's time equals `time0`, the update loop aborts with `none`. -/
lemma approxStep_eq_none (time0 : ℚ) (m : List Rank) :
    ∀ cur i ni, (∃ r ∈ m, r.2 = time0) → approxStep time0 cur i ni m = none := by
  induction m with
  | nil =>
    rintro cur i ni ⟨r, hr, -⟩
    exact absurd hr (List.not_mem_nil r)
  | cons hd tl ih =>
    rintro cur i ni ⟨r, hr, hrt⟩
    obtain ⟨v, t⟩ := hd
    simp only [approxStep]
    by_cases h : time0 - t = 0
    · simp [h]
    · have htl : ∃ r ∈ tl, r.2 = time0 := by
        rcases List.mem_cons.mp hr with h1 | h1
        · exfalso
          apply h
          rw [h1] at hrt
          simp only at hrt
          rw [hrt, sub_self]
        · exact ⟨r, h1, hrt⟩
      rw [if_neg h, ih _ _ _ htl]

/-- If no rank's time equals `time0`, the update loop succeeds. -/
lemma approxStep_eq_some (time0 : ℚ) (m : List Rank) :
    ∀ cur i ni, (∀ r ∈ m, r.2 ≠ time0) → ∃ nds nf, approxStep time0 cur i ni m = some (nds, nf) := by
  induction m with
  | nil => exact fun cur i ni _ => ⟨[], ni, rfl⟩
  | cons hd tl ih =>
    rintro cur i ni hne
    obtain ⟨v, t⟩ := hd
    have ht : time0 - t ≠ 0 := by
      intro h0
      exact hne (v, t) (List.mem_cons_self _ _) (by simpa using (sub_eq_zero.mp h0).symm)
    obtain ⟨nds, nf, hrec⟩ :=
      ih ((cur - v) / (time0 - t)) (i + 1) (if cur - v = 0 then ni else i + 2)
        (fun r hr => hne r (List.mem_cons_of_mem _ hr))
    refine ⟨((cur - v) / (time0 - t)) :: nds, nf, ?_⟩
    simp only [approxStep, if_neg ht, hrec]

/-- The update loop produces exactly one new delta per existing rank. -/
lemma approxStep_length (time0 : ℚ) (m : List Rank) :
    ∀ cur i ni nds nf, approxStep time0 cur i ni m = some (nds, nf) → nds.length = m.length := by
  induction m with
  | nil =>
    intro cur i ni nds nf h
    simp only [approxStep, Option.some.injEq, Prod.mk.injEq] at h
    rw [← h.1]
    rfl
  | cons hd tl ih =>
    intro cur i ni nds nf h
    obtain ⟨v, t⟩ := hd
    simp only [approxStep] at h
    by_cases ht : time0 - t = 0
    · simp [ht] at h
    · rw [if_neg ht] at h
      rcases hrec : approxStep time0 ((cur - v) / (time0 - t)) (i + 1)
          (if cur - v = 0 then ni else i + 2) tl with - | ⟨tl1, nf1⟩
      · rw [hrec] at h
        exact absurd h (by simp)
      · rw [hrec] at h
        simp only [Option.some.injEq, Prod.mk.injEq] at h
        rw [← h.1]
        simp [ih _ _ _ _ _ hrec]

/-- Reversing one update step: `rewindAux` applied to the freshly built table
    (any head time `t0'`) reconstructs the pre-update table. -/
lemma rewindAux_approxStep (time0 : ℚ) (m : List Rank) :
    ∀ cur i ni nds nf t0', approxStep time0 cur i ni m = some (nds, nf) →
      rewindAux time0 ((cur, t0') :: nds.zip (m.map Prod.snd)) = m := by
  induction m with
  | nil =>
    intro cur i ni nds nf t0' h
    simp only [approxStep, Option.some.injEq, Prod.mk.injEq] at h
    rw [← h.1]
    rfl
  | cons hd tl ih =>
    intro cur i ni nds nf t0' h
    obtain ⟨v, t⟩ := hd
    simp only [approxStep] at h
    by_cases ht : time0 - t = 0
    · simp [ht] at h
    · rw [if_neg ht] at h
      rcases hrec : approxStep time0 ((cur - v) / (time0 - t)) (i + 1)
          (if cur - v = 0 then ni else i + 2) tl with - | ⟨tl1, nf1⟩
      · rw [hrec] at h
        exact absurd h (by simp)
      · rw [hrec] at h
        simp only [Option.some.injEq, Prod.mk.injEq] at h
        rw [← h.1]
        simp only [List.map_cons, List.zip_cons_cons, rewindAux, List.cons.injEq]
        constructor
        · rw [div_mul_cancel₀ _ ht]
          simp only [Prod.mk.injEq]
          exact ⟨by ring, trivial⟩
        · exact ih _ _ _ _ _ t hrec

/-! ### Helper lemmas about `extrapolate` and `make_derivs` -/

/-- The extrapolation loop writes one value per rank. -/
lemma extraVals_length (t : ℚ) (m : List Rank) : (extraVals t m).length = m.length := by
  induction m with
  | nil => rfl
  | cons hd tl ih =>
    obtain ⟨v, t0⟩ := hd
    cases tl with
    | nil => rfl
    | cons r rest =>
      simp only [extraVals, List.length_cons]
      simpa using ih

/-- `extrapolate` with `keep_time=False` on a non-empty table: it succeeds,
    keeps the rank count, and shifts the times up one rank (rank 0 gets the
    target time, rank `i + 1` gets rank `i`'s old time, the old top time is
    dropped). -/
lemma extrapolate_false_spec (t : ℚ) (m : List Rank) (hm : m ≠ []) :
    ∃ m1 r, extrapolate m t false = some (m1, r) ∧ m1.length = m.length ∧
      m1.map Prod.snd = (t :: m.map Prod.snd).take m.length := by
  rcases m with - | ⟨hd, tl⟩
  · exact absurd rfl hm
  · refine ⟨_, _, rfl, ?_, ?_⟩
    · rw [List.length_zip, extraVals_length]
      simp only [if_neg Bool.false_ne_true, List.length_take, List.length_cons,
        List.length_map]
      omega
    · rw [if_neg (by simp : ¬(false = true))] at *
      rw [List.map_snd_zip]
      rw [extraVals_length]
      simp only [List.length_take, List.length_cons, List.length_map]
      omega

/-- If every rank time already equals `time`, the `make_derivs` loop is a
    no-op. -/
lemma makeDerivsAux_fixed (t : ℚ) (m : List Rank) (ht : ∀ r ∈ m, r.2 = t) :
    ∀ fuel i, i + fuel = m.length → makeDerivsAux t i fuel m = some m := by
  intro fuel
  induction fuel with
  | zero => intro i _; rfl
  | succ fuel ih =>
    intro i hi
    have hilt : i < m.length := by omega
    have hget : m[i]? = some m[i] := List.getElem?_eq_getElem hilt
    have htime : (m[i]).2 = t := ht _ (List.getElem_mem hilt)
    rcases hp : m[i] with ⟨v, tv⟩
    rw [hp] at hget htime
    simp only at htime
    simp only [makeDerivsAux, hget, htime, if_pos]
    exact ih (i + 1) (by omega)

/-- `make_derivs` is the identity on a non-empty table whose rank times all
    equal the target time. -/
lemma make_derivs_fixed (t : ℚ) (m : List Rank) (hm : m ≠ []) (ht : ∀ r ∈ m, r.2 = t) :
    make_derivs m t = some m := by
  unfold make_derivs
  rw [if_neg (by simpa using hm)]
  exact makeDerivsAux_fixed t m ht m.length 0 (by omega)

/-- The `make_derivs` loop, started with the first `i` times already equal
    to `t`, converts every rank time to `t` while keeping the rank count. -/
lemma makeDerivsAux_spec (t : ℚ) :
    ∀ fuel i (m : List Rank), i + fuel = m.length →
      (m.map Prod.snd).take i = List.replicate i t →
      ∃ m1, makeDerivsAux t i fuel m = some m1 ∧ m1.length = m.length ∧
        m1.map Prod.snd = List.replicate m.length t := by
  intro fuel
  induction fuel with
  | zero =>
    intro i m hi hpre
    refine ⟨m, rfl, rfl, ?_⟩
    have hieq : i = m.length := by omega
    rw [hieq] at hpre
    rw [← hpre]
    have : (m.map Prod.snd).take m.length = m.map Prod.snd := by
      rw [← List.length_map m Prod.snd, List.take_length]
    rw [this]
  | succ fuel ih =>
    intro i m hi hpre
    have hilt : i < m.length := by omega
    have hget : m[i]? = some m[i] := List.getElem?_eq_getElem hilt
    rcases hp : m[i] with ⟨v, tv⟩
    rw [hp] at hget
    by_cases htv : tv = t
    · have hpre1 : (m.map Prod.snd).take (i + 1) = List.replicate (i + 1) t := by
        rw [List.take_succ, hpre, List.replicate_succ']
        have : (m.map Prod.snd)[i]? = some t := by
          rw [List.getElem?_map, List.getElem?_eq_getElem hilt, hp]
          simp [htv]
        rw [this]
        rfl
      have := ih (i + 1) m (by omega) hpre1
      simpa only [makeDerivsAux, hget, htv, if_pos] using this
    · have hmne : m ≠ [] := by
        intro h0
        rw [h0] at hilt
        simp at hilt
      obtain ⟨m1, r, hex, hlen1, htimes1⟩ := extrapolate_false_spec t m hmne
      have hpre1 : (m1.map Prod.snd).take (i + 1) = List.replicate (i + 1) t := by
        rw [htimes1, List.take_take]
        have hmin : (i + 1) ⊓ m.length = i + 1 := by omega
        rw [hmin, List.take_succ_cons, List.replicate_succ]
        have : (m.map Prod.snd).take i = List.replicate i t := hpre
        rw [this]
      obtain ⟨m2, hrec, hlen2, htimes2⟩ := ih (i + 1) m1 (by omega) hpre1
      refine ⟨m2, ?_, by rw [hlen2, hlen1], by rw [htimes2, hlen1]⟩
      simp only [makeDerivsAux, hget, htv, hex, hrec]
      simp

/-- `make_derivs(time)` on a non-empty table succeeds, keeps the rank count,
    and makes every rank time equal to `time`. -/
lemma make_derivs_spec (t : ℚ) (m : List Rank) (hm : m ≠ []) :
    ∃ m1, make_derivs m t = some m1 ∧ m1.length = m.length ∧
      m1.map Prod.snd = List.replicate m.length t := by
  unfold make_derivs
  rw [if_neg (by simpa using hm)]
  exact makeDerivsAux_spec t m.length 0 m (by omega) (by simp)

/-- A rank of a table converted by `make_derivs` carries the target time. -/
lemma time_eq_of_map_replicate {m1 : List Rank} {t : ℚ} {n : Nat}
    (h : m1.map Prod.snd = List.replicate n t) : ∀ r ∈ m1, r.2 = t := by
  intro r hr
  have : r.2 ∈ List.replicate n t := by
    rw [← h]
    exact List.mem_map_of_mem Prod.snd hr
  exact List.eq_of_mem_replicate this

/-! ### Helper lemmas about `scaleUp` and `scaleDown` -/

/-- `scaleUp` keeps the rank count. -/
lemma scaleUp_length : ∀ (i : Nat) (l : List Rank), (scaleUp i l).length = l.length
  | _, [] => rfl
  | i, (v, t) :: rest => by
    simp only [scaleUp, List.length_cons]
    rw [scaleUp_length (i + 1) rest]

/-- `scaleUp` keeps the rank times. -/
lemma scaleUp_snd : ∀ (i : Nat) (l : List Rank),
    (scaleUp i l).map Prod.snd = l.map Prod.snd
  | _, [] => rfl
  | i, (v, t) :: rest => by
    simp only [scaleUp, List.map_cons]
    rw [scaleUp_snd (i + 1) rest]

/-- Dividing by `i + 1` inverts multiplying by `i + 1` (the
    `differentiate` / `integrate` rescalings cancel, over `ℚ`). -/
lemma scaleDown_scaleUp : ∀ (i : Nat) (l : List Rank), scaleDown i (scaleUp i l) = l
  | _, [] => rfl
  | i, (v, t) :: rest => by
    simp only [scaleUp, scaleDown, List.cons.injEq]
    constructor
    · have hne : ((i : ℚ) + 1) ≠ 0 := by positivity
      rw [mul_div_cancel_right₀ v hne]
    · exact scaleDown_scaleUp (i + 1) rest

/-! ### Claim C1 -/

/-- Claim C1: for every model and every sample `(val0, time0)` whose time
    equals the time of some existing rank, `approximate` returns the failure
    signal (`None`) and leaves the rank table exactly as it was before the
    call. -/
theorem C1_duplicate_timestamp_fails_unchanged (m : List Rank) (val0 time0 : ℚ)
    (h : ∃ r ∈ m, r.2 = time0) :
    approximate m val0 time0 = (m, none) := by
  unfold approximate
  rw [approxStep_eq_none time0 m val0 0 1 h]

/-- Witness for C1 at the concrete model `[(1, 2), (3, 0)]` and sample
    `(7, 2)`: time `2` duplicates rank 0's time. -/
theorem C1_witness :
    (∃ r ∈ [((1 : ℚ), (2 : ℚ)), ((3 : ℚ), (0 : ℚ))], r.2 = (2 : ℚ)) ∧
    approximate [((1 : ℚ), (2 : ℚ)), ((3 : ℚ), (0 : ℚ))] 7 2 =
      ([((1 : ℚ), (2 : ℚ)), ((3 : ℚ), (0 : ℚ))], none) := by
  have hmem : ∃ r ∈ [((1 : ℚ), (2 : ℚ)), ((3 : ℚ), (0 : ℚ))], r.2 = (2 : ℚ) :=
    ⟨((1 : ℚ), (2 : ℚ)), List.mem_cons_self _ _, rfl⟩
  exact ⟨hmem, C1_duplicate_timestamp_fails_unchanged _ 7 2 hmem⟩

/-! ### Claim C2 -/

/-- Claim C2, counterexample: after the fifth `approximate` call of the
    `f(x) = x^3` scenario the table has five ranks (the top one exactly
    zero), so `num_deltas()` is not `4` as the claim states. -/
theorem C2_counterexample :
    ¬(num_deltas c2Model none = 4 ∧ get_poly_coefs c2Model 4 = some [64, 48, 12, 1]) := by
  rintro ⟨h, -⟩
  have h5 : num_deltas c2Model none = 5 := by
    norm_num [c2Model, approximate, approxStep, num_deltas]
  rw [h5] at h
  exact absurd h (by norm_num)

/-- Claim C2, amended: after the fifth call `num_deltas()` equals `5`,
    `num_deltas(0)` (trimming exactly-zero top ranks) equals `4`, and
    `get_poly_coefs(4)` equals `[64, 48, 12, 1, 0]` exactly. -/
theorem C2_amended_scenario :
    num_deltas c2Model none = 5 ∧ num_deltas c2Model (some 0) = 4 ∧
    get_poly_coefs c2Model 4 = some [64, 48, 12, 1, 0] := by
  refine ⟨?_, ?_, ?_⟩
  · norm_num [c2Model, approximate, approxStep, num_deltas]
  · norm_num [c2Model, approximate, approxStep, num_deltas, numScanAux]
  · norm_num [c2Model, approximate, approxStep, get_poly_coefs, make_derivs, makeDerivsAux,
      extrapolate, extraVals]

/-! ### Claim C3 -/

/-- Claim C3: for every model with at least one rank and every sample whose
    time differs from all rank times, `approximate` succeeds and a
    subsequent `rewind()` restores the rank table exactly (same rank count,
    every value and time), over exact arithmetic. -/
theorem C3_rewind_inverts_approximate (m : List Rank) (val0 time0 : ℚ)
    (h1 : 1 ≤ m.length) (h2 : ∀ r ∈ m, r.2 ≠ time0) :
    ∃ m' c, approximate m val0 time0 = (m', some c) ∧ rewind m' = m := by
  obtain ⟨nds, nf, hs⟩ := approxStep_eq_some time0 m val0 0 1 h2
  have happ : approximate m val0 time0 =
      ((val0 :: nds).zip (time0 :: m.map Prod.snd),
        some ((((val0 :: nds).zip (time0 :: m.map Prod.snd)).length : Int) - (nf : Int))) := by
    simp only [approximate, hs]
  refine ⟨_, _, happ, ?_⟩
  rw [List.zip_cons_cons]
  simp only [rewind]
  exact rewindAux_approxStep time0 m val0 0 1 nds nf time0 hs

/-- Witness for C3 at the model `[(1, 0)]` and sample `(3, 1)`. -/
theorem C3_witness :
    1 ≤ ([((1 : ℚ), (0 : ℚ))] : List Rank).length ∧
    (∀ r ∈ ([((1 : ℚ), (0 : ℚ))] : List Rank), r.2 ≠ (1 : ℚ)) ∧
    ∃ m' c, approximate [((1 : ℚ), (0 : ℚ))] 3 1 = (m', some c) ∧
      rewind m' = [((1 : ℚ), (0 : ℚ))] := by
  have hne : ∀ r ∈ ([((1 : ℚ), (0 : ℚ))] : List Rank), r.2 ≠ (1 : ℚ) := by
    intro r hr
    rw [List.mem_singleton] at hr
    rw [hr]
    norm_num
  exact ⟨by norm_num, hne, C3_rewind_inverts_approximate _ 3 1 (by norm_num) hne⟩

/-! ### Claim C4 -/

/-- Claim C4: every accepted update either appends exactly one rank or — when
    the returned signed count is `0` or negative — leaves the rank count
    unchanged.  (The code in fact always appends exactly one rank; the first
    disjunct always holds.) -/
theorem C4_success_appends_one_rank (m : List Rank) (val0 time0 : ℚ)
    (m' : List Rank) (c : Int) (h : approximate m val0 time0 = (m', some c)) :
    m'.length = m.length + 1 ∨ (c ≤ 0 ∧ m'.length = m.length) := by
  left
  unfold approximate at h
  rcases hs : approxStep time0 val0 0 1 m with - | ⟨nds, ni⟩
  · rw [hs] at h
    exact absurd h (by simp)
  · rw [hs] at h
    simp only [Prod.mk.injEq, Option.some.injEq] at h
    rw [← h.1, List.length_zip, List.length_cons, List.length_cons, List.length_map,
      approxStep_length time0 m val0 0 1 nds ni hs, min_self]

/-- Witness for C4: the first sample on an empty model appends one rank. -/
theorem C4_witness :
    ([((1 : ℚ), (0 : ℚ))] : List Rank).length = ([] : List Rank).length + 1 ∨
      ((0 : Int) ≤ 0 ∧ ([((1 : ℚ), (0 : ℚ))] : List Rank).length = ([] : List Rank).length) :=
  C4_success_appends_one_rank [] 1 0 [((1 : ℚ), (0 : ℚ))] 0
    (by norm_num [approximate, approxStep])

/-! ### Pointwise helper lemmas for `extrapolate` -/

/-- For a non-empty list the head with default equals index-0 lookup. -/
lemma headD_eq_getD {α : Type} (l : List α) (hl : l ≠ []) (d d' : α) :
    l.headD d = l.getD 0 d' := by
  cases l with
  | nil => exact absurd rfl hl
  | cons a l => rfl

/-- For a non-empty list the last element with default equals lookup at
    `length - 1`, whatever the defaults. -/
lemma getLastD_eq_getD {α : Type} (l : List α) (hl : l ≠ []) (d d' : α) :
    l.getLastD d = l.getD (l.length - 1) d' := by
  have hlt : l.length - 1 < l.length := by
    cases l with
    | nil => exact absurd rfl hl
    | cons a l => simp
  rw [List.getLastD_eq_getLast?, List.getLast?_eq_getElem?, List.getD_eq_getElem?_getD,
    List.getElem?_eq_getElem hlt]
  rfl

/-- Indexing a zip below both lengths indexes the components. -/
lemma zip_getD {α β : Type} (l1 : List α) (l2 : List β) (d1 : α) (d2 : β) :
    ∀ (i : Nat), i < l1.length → i < l2.length →
      (l1.zip l2).getD i (d1, d2) = (l1.getD i d1, l2.getD i d2) := by
  induction l1 generalizing l2 with
  | nil => intro i h1 _; simp at h1
  | cons a l1 ih =>
    intro i h1 h2
    cases l2 with
    | nil => simp at h2
    | cons b l2 =>
      cases i with
      | zero => simp [List.zip_cons_cons]
      | succ j =>
        simp only [List.zip_cons_cons, List.getD_cons_succ]
        exact ih l2 j (by simpa using h1) (by simpa using h2)

/-- Indexing a take below the bound indexes the original list. -/
lemma getD_take {α : Type} (l : List α) (n i : Nat) (hi : i < n) (d : α) :
    (l.take n).getD i d = l.getD i d := by
  rw [List.getD_eq_getElem?_getD, List.getD_eq_getElem?_getD, List.getElem?_take, if_pos hi]

/-- Indexing a `dropLast` below `length - 1` indexes the original list. -/
lemma getD_dropLast {α : Type} (l : List α) (i : Nat) (hi : i < l.length - 1) (d : α) :
    l.dropLast.getD i d = l.getD i d := by
  rw [List.getD_eq_getElem?_getD, List.getD_eq_getElem?_getD, List.getElem?_dropLast,
    if_pos hi]

/-- Indexing the times column indexes the table. -/
lemma snd_getD (m : List Rank) (i : Nat) (hi : i < m.length) :
    (m.map Prod.snd).getD i 0 = (m.getD i (0, 0)).2 := by
  rw [List.getD_eq_getElem?_getD, List.getD_eq_getElem?_getD, List.getElem?_map,
    List.getElem?_eq_getElem hi]
  rfl

/-- The extrapolation loop leaves the top value unchanged. -/
lemma extraVals_getD_last (t : ℚ) : ∀ (m : List Rank), m ≠ [] →
    (extraVals t m).getD (m.length - 1) 0 = (m.getD (m.length - 1) (0, 0)).1 := by
  intro m
  induction m with
  | nil => intro h; exact absurd rfl h
  | cons hd tl ih =>
    intro _
    obtain ⟨v, t0⟩ := hd
    cases tl with
    | nil => rfl
    | cons r rest =>
      have hlen : ((v, t0) :: r :: rest : List Rank).length - 1 =
          ((r :: rest : List Rank).length - 1) + 1 := by
        simp
      rw [hlen]
      simp only [extraVals, List.getD_cons_succ]
      exact ih (by simp)

/-- The in-place recurrence of the extrapolation loop, pointwise: the new
    value of a non-top rank `i` is its old value plus the *new* value of
    rank `i + 1` times `(t - old time of rank i)`. -/
lemma extraVals_getD_rec (t : ℚ) : ∀ (m : List Rank) (i : Nat), i + 1 < m.length →
    (extraVals t m).getD i 0 =
      (m.getD i (0, 0)).1 + (extraVals t m).getD (i + 1) 0 * (t - (m.getD i (0, 0)).2) := by
  intro m
  induction m with
  | nil => intro i hi; simp at hi
  | cons hd tl ih =>
    intro i hi
    obtain ⟨v, t0⟩ := hd
    cases tl with
    | nil => simp at hi
    | cons r rest =>
      cases i with
      | zero =>
        simp only [extraVals, List.getD_cons_zero, List.getD_cons_succ]
        have hne : extraVals t (r :: rest) ≠ [] := by
          intro h0
          have := congrArg List.length h0
          rw [extraVals_length] at this
          simp at this
        rw [headD_eq_getD _ hne 0 0]
      | succ j =>
        simp only [extraVals, List.getD_cons_succ]
        exact ih j (by simpa using hi)

/-- `extrapolate` with `keep_time` unset on a non-empty table, written as an
    explicit value. -/
lemma extrapolate_false_eq (m : List Rank) (hm : m ≠ []) (t : ℚ) :
    extrapolate m t false =
      some ((extraVals t m).zip ((t :: m.map Prod.snd).take m.length),
        (extraVals t m).headD 0) := by
  rcases m with - | ⟨hd, tl⟩
  · exact absurd rfl hm
  · rfl

/-- `extrapolate` with `keep_time` set on a non-empty table, written as an
    explicit value. -/
lemma extrapolate_true_eq (m : List Rank) (hm : m ≠ []) (t : ℚ) :
    extrapolate m t true =
      some ((extraVals t m).zip
          (((t :: m.map Prod.snd).take m.length).dropLast ++
            [(m.map Prod.snd).getLastD t]),
        (extraVals t m).headD 0) := by
  rcases m with - | ⟨hd, tl⟩
  · exact absurd rfl hm
  · rfl

/-! ### Claim C5 -/

/-- Claim C5, counterexample: on the model `[(0, 0), (1, 1)]`,
    `extrapolate(2)` (with `keep_time` unset) yields `[(2, 2), (1, 0)]` —
    the top rank's time becomes rank 0's old time `0`, not the target time
    `2` the claim predicts. -/
theorem C5_counterexample :
    extrapolate [((0 : ℚ), (0 : ℚ)), ((1 : ℚ), (1 : ℚ))] 2 false =
      some ([(2, 2), (1, 0)], 2) ∧
    extrapolate [((0 : ℚ), (0 : ℚ)), ((1 : ℚ), (1 : ℚ))] 2 false ≠
      some ([(2, 2), (1, 2)], 2) := by
  constructor <;> norm_num [extrapolate, extraVals]

/-- Claim C5, amended: on a non-empty model, `extrapolate(t, keep_time)`
    succeeds and (in descending order, each rank reading the already-updated
    rank above it) replaces `rank[i].value` by
    `rank[i].value + rank[i+1].value_new * (t - rank[i].time)`, keeps the top
    value, and returns the updated rank-0 value; the rank *times shift up by
    one rank*: rank 0 gets `t` and rank `i ≥ 1` gets rank `i-1`'s old time —
    except the top rank, which keeps its own old time when `keep_time` is
    set.  On a model with zero ranks it returns the failure signal. -/
theorem C5_extrapolate_shifts_times (m : List Rank) (t : ℚ) (kt : Bool) :
    extrapolate ([] : List Rank) t kt = none ∧
    (m ≠ [] → ∃ m' r, extrapolate m t kt = some (m', r) ∧
      m'.length = m.length ∧
      r = (m'.getD 0 (0, 0)).1 ∧
      (m'.getD (m.length - 1) (0, 0)).1 = (m.getD (m.length - 1) (0, 0)).1 ∧
      (∀ i, i + 1 < m.length →
        (m'.getD i (0, 0)).1 =
          (m.getD i (0, 0)).1 + (m'.getD (i + 1) (0, 0)).1 * (t - (m.getD i (0, 0)).2)) ∧
      (∀ i, 1 ≤ i → i < m.length → (kt = true → i + 1 < m.length) →
        (m'.getD i (0, 0)).2 = (m.getD (i - 1) (0, 0)).2) ∧
      (kt = false → (m'.getD 0 (0, 0)).2 = t) ∧
      (kt = true → (m'.getD (m.length - 1) (0, 0)).2 = (m.getD (m.length - 1) (0, 0)).2) ∧
      (kt = true → 2 ≤ m.length → (m'.getD 0 (0, 0)).2 = t)) := by
  refine ⟨rfl, fun hm => ?_⟩
  have hmlen : 0 < m.length := List.length_pos_of_ne_nil hm
  have hvlen : (extraVals t m).length = m.length := extraVals_length t m
  have hvne : extraVals t m ≠ [] := List.ne_nil_of_length_pos (by omega)
  have htlen : (m.map Prod.snd).length = m.length := List.length_map m Prod.snd
  have hntslen : ((t :: m.map Prod.snd).take m.length).length = m.length := by
    rw [List.length_take, List.length_cons, htlen]
    omega
  have hnts_getD : ∀ i, i < m.length →
      ((t :: m.map Prod.snd).take m.length).getD i 0 = (t :: m.map Prod.snd).getD i 0 :=
    fun i hi => getD_take _ _ _ hi 0
  cases kt with
  | false =>
    have hzip : ∀ i, i < m.length →
        (((extraVals t m).zip ((t :: m.map Prod.snd).take m.length)).getD i (0, 0)) =
          ((extraVals t m).getD i 0, ((t :: m.map Prod.snd).take m.length).getD i 0) :=
      fun i hi => zip_getD _ _ _ _ i (by omega) (by omega)
    refine ⟨(extraVals t m).zip ((t :: m.map Prod.snd).take m.length),
      (extraVals t m).headD 0, extrapolate_false_eq m hm t,
      ?_, ?_, ?_, ?_, ?_, ?_, ?_, ?_⟩
    · rw [List.length_zip, hvlen, hntslen, min_self]
    · rw [hzip 0 (by omega), headD_eq_getD _ hvne 0 0]
    · rw [hzip (m.length - 1) (by omega)]
      exact extraVals_getD_last t m hm
    · intro i hi
      rw [hzip i (by omega), hzip (i + 1) (by omega)]
      exact extraVals_getD_rec t m i hi
    · intro i h1 hi _
      rw [hzip i (by omega), hnts_getD i hi]
      obtain ⟨j, rfl⟩ : ∃ j, i = j + 1 := ⟨i - 1, by omega⟩
      simp only [List.getD_cons_succ, Nat.add_sub_cancel]
      exact snd_getD m j (by omega)
    · intro _
      rw [hzip 0 (by omega), hnts_getD 0 (by omega)]
      rfl
    · intro h
      exact absurd h (by simp)
    · intro h _
      exact absurd h (by simp)
  | true =>
    have hNTlen : (((t :: m.map Prod.snd).take m.length).dropLast ++
        [(m.map Prod.snd).getLastD t]).length = m.length := by
      rw [List.length_append, List.length_dropLast, hntslen, List.length_singleton]
      omega
    have hNT_getD : ∀ i, i < m.length - 1 →
        ((((t :: m.map Prod.snd).take m.length).dropLast ++
          [(m.map Prod.snd).getLastD t]).getD i 0) = (t :: m.map Prod.snd).getD i 0 := by
      intro i hi
      rw [List.getD_append _ _ _ _ (by rw [List.length_dropLast, hntslen]; omega)]
      rw [getD_dropLast _ _ (by rw [hntslen]; omega)]
      exact hnts_getD i (by omega)
    have hNT_top : ((((t :: m.map Prod.snd).take m.length).dropLast ++
        [(m.map Prod.snd).getLastD t]).getD (m.length - 1) 0) =
          (m.getD (m.length - 1) (0, 0)).2 := by
      have htne : (m.map Prod.snd) ≠ [] := List.ne_nil_of_length_pos (by omega)
      rw [List.getD_append_right _ _ _ _
        (by rw [List.length_dropLast, hntslen])]
      rw [List.length_dropLast, hntslen, Nat.sub_self, List.getD_cons_zero]
      rw [getLastD_eq_getD _ htne t 0, htlen]
      exact snd_getD m (m.length - 1) (by omega)
    have hzip : ∀ i, i < m.length →
        (((extraVals t m).zip (((t :: m.map Prod.snd).take m.length).dropLast ++
            [(m.map Prod.snd).getLastD t])).getD i (0, 0)) =
          ((extraVals t m).getD i 0,
            ((((t :: m.map Prod.snd).take m.length).dropLast ++
              [(m.map Prod.snd).getLastD t])).getD i 0) :=
      fun i hi => zip_getD _ _ _ _ i (by omega) (by omega)
    refine ⟨(extraVals t m).zip (((t :: m.map Prod.snd).take m.length).dropLast ++
        [(m.map Prod.snd).getLastD t]),
      (extraVals t m).headD 0, extrapolate_true_eq m hm t,
      ?_, ?_, ?_, ?_, ?_, ?_, ?_, ?_⟩
    · rw [List.length_zip, hvlen, hNTlen, min_self]
    · rw [hzip 0 (by omega), headD_eq_getD _ hvne 0 0]
    · rw [hzip (m.length - 1) (by omega)]
      exact extraVals_getD_last t m hm
    · intro i hi
      rw [hzip i (by omega), hzip (i + 1) (by omega)]
      exact extraVals_getD_rec t m i hi
    · intro i h1 hi hcond
      have hi1 : i + 1 < m.length := hcond rfl
      rw [hzip i (by omega), hNT_getD i (by omega)]
      obtain ⟨j, rfl⟩ : ∃ j, i = j + 1 := ⟨i - 1, by omega⟩
      simp only [List.getD_cons_succ, Nat.add_sub_cancel]
      exact snd_getD m j (by omega)
    · intro h
      exact absurd h (by simp)
    · intro _
      rw [hzip (m.length - 1) (by omega)]
      exact hNT_top
    · intro _ h2
      rw [hzip 0 (by omega), hNT_getD 0 (by omega)]
      rfl

/-- Witness for C5 at the model `[(1, 0), (2, 1)]`, `t = 3`,
    `keep_time` unset. -/
theorem C5_witness :
    ∃ m' r, extrapolate [((1 : ℚ), (0 : ℚ)), ((2 : ℚ), (1 : ℚ))] 3 false = some (m', r) ∧
      m'.length = 2 := by
  obtain ⟨m', r, hex, hlen, -⟩ :=
    (C5_extrapolate_shifts_times [((1 : ℚ), (0 : ℚ)), ((2 : ℚ), (1 : ℚ))] 3 false).2 (by simp)
  exact ⟨m', r, hex, by rw [hlen]; rfl⟩

/-! ### Claim C6 -/

/-- Claim C6: on a model with at least two ranks, `differentiate(t)` followed
    by `integrate(v0, t)` yields a model whose rank-0 value is `v0` and whose
    every rank `i ≥ 1` has exactly the same value as the corresponding rank
    of the model just before `differentiate` (after conversion to
    derivatives at `t`, i.e. of `make_derivs(t)`'s result), over exact
    arithmetic. -/
theorem C6_integrate_inverts_differentiate (m : List Rank) (t v0 : ℚ)
    (h2 : 2 ≤ m.length) (md : List Rank) (hdiff : differentiate m (some t) = some md) :
    ∃ m1, make_derivs m t = some m1 ∧
      ∃ res, integrate md v0 (some t) = some res ∧
        res.head? = some (v0, t) ∧
        res.tail.map Prod.fst = m1.tail.map Prod.fst := by
  have hmne : m ≠ [] := by
    intro h0
    rw [h0] at h2
    simp at h2
  obtain ⟨m1, hmk, hlen1, htimes1⟩ := make_derivs_spec t m hmne
  have hopt : make_derivsOpt m (some t) = make_derivs m t := by
    rcases m with - | ⟨hd, tl⟩ <;> rfl
  have hmd : md = scaleUp 0 m1.tail := by
    unfold differentiate at hdiff
    rw [hopt, hmk] at hdiff
    simpa using hdiff.symm
  have htail : ∀ r ∈ m1.tail, r.2 = t := fun r hr =>
    time_eq_of_map_replicate htimes1 r (List.mem_of_mem_tail hr)
  have hmdtimes : ∀ r ∈ md, r.2 = t := by
    intro r hr
    rw [hmd] at hr
    have h2' : r.2 ∈ (scaleUp 0 m1.tail).map Prod.snd := List.mem_map_of_mem Prod.snd hr
    rw [scaleUp_snd] at h2'
    obtain ⟨r1, hr1, hr1eq⟩ := List.mem_map.mp h2'
    rw [← hr1eq]
    exact htail r1 hr1
  have hmdlen : md.length = m.length - 1 := by
    rw [hmd, scaleUp_length, List.length_tail, hlen1]
  have hmdne : md ≠ [] := by
    intro h0
    rw [h0] at hmdlen
    simp at hmdlen
    omega
  have hfix : make_derivs md t = some md := make_derivs_fixed t md hmdne hmdtimes
  have hopt2 : make_derivsOpt md (some t) = make_derivs md t := by
    rcases md with - | ⟨hd, tl⟩ <;> rfl
  have hheadt : (md.headD (0, 0)).2 = t := by
    rcases md with - | ⟨r, rest⟩
    · exact absurd rfl hmdne
    · exact hmdtimes r (List.mem_cons_self _ _)
  refine ⟨m1, hmk, (v0, t) :: m1.tail, ?_, rfl, rfl⟩
  unfold integrate
  rw [hopt2, hfix]
  simp only [Option.map_some']
  rw [hheadt, hmd, scaleDown_scaleUp]

/-- Witness for C6 at the model `[(1, 0), (2, 0), (3, 0)]` (a Taylor table
    at time `0`), `t = 0`, `v0 = 9`. -/
theorem C6_witness :
    2 ≤ ([((1 : ℚ), (0 : ℚ)), ((2 : ℚ), (0 : ℚ)), ((3 : ℚ), (0 : ℚ))] : List Rank).length ∧
    differentiate [((1 : ℚ), (0 : ℚ)), ((2 : ℚ), (0 : ℚ)), ((3 : ℚ), (0 : ℚ))] (some 0) =
      some [((2 : ℚ), (0 : ℚ)), ((6 : ℚ), (0 : ℚ))] ∧
    ∃ m1, make_derivs [((1 : ℚ), (0 : ℚ)), ((2 : ℚ), (0 : ℚ)), ((3 : ℚ), (0 : ℚ))] 0 = some m1 ∧
      ∃ res, integrate [((2 : ℚ), (0 : ℚ)), ((6 : ℚ), (0 : ℚ))] 9 (some 0) = some res ∧
        res.head? = some (9, 0) ∧
        res.tail.map Prod.fst = m1.tail.map Prod.fst := by
  have hdiff : differentiate [((1 : ℚ), (0 : ℚ)), ((2 : ℚ), (0 : ℚ)), ((3 : ℚ), (0 : ℚ))] (some 0) =
      some [((2 : ℚ), (0 : ℚ)), ((6 : ℚ), (0 : ℚ))] := by
    norm_num [differentiate, make_derivsOpt, make_derivs, makeDerivsAux, scaleUp]
  exact ⟨by norm_num, hdiff,
    C6_integrate_inverts_differentiate _ 0 9 (by norm_num) _ hdiff⟩

/-! ### Claim C7 -/

/-- Claim C7, counterexample: for the empty coefficient list the round-trip
    returns the failure signal `None`, not the empty list. -/
theorem C7_counterexample :
    get_poly_coefs (from_poly_coefs [] 0) 0 = none ∧
      (none : Option (List ℚ)) ≠ some [] := by
  exact ⟨rfl, by simp⟩

/-- Claim C7, amended: for every non-empty coefficient list `C`,
    `from_poly_coefs(C)` followed by `get_poly_coefs()` (both at the default
    time `0`) returns exactly `C`, over exact arithmetic. -/
theorem C7_roundtrip_nonempty (C : List ℚ) (h : C ≠ []) :
    get_poly_coefs (from_poly_coefs C 0) 0 = some C := by
  have hne : from_poly_coefs C 0 ≠ [] := by
    simpa [from_poly_coefs] using h
  have ht : ∀ r ∈ from_poly_coefs C 0, r.2 = 0 := by
    intro r hr
    simp only [from_poly_coefs, List.mem_map] at hr
    obtain ⟨c, -, hc⟩ := hr
    rw [← hc]
  unfold get_poly_coefs
  rw [make_derivs_fixed 0 _ hne ht]
  simp only [from_poly_coefs, Option.map_some', List.map_map, Option.some.injEq]
  have hcomp : (Prod.fst ∘ fun c : ℚ => (c, (0 : ℚ))) = id := rfl
  rw [hcomp, List.map_id]

/-- Witness for C7 at `C = [1, 2, 3]`. -/
theorem C7_witness :
    ([(1 : ℚ), 2, 3] ≠ []) ∧
    get_poly_coefs (from_poly_coefs [(1 : ℚ), 2, 3] 0) 0 = some [(1 : ℚ), 2, 3] :=
  ⟨by simp, C7_roundtrip_nonempty [(1 : ℚ), 2, 3] (by simp)⟩

/-! ### Helper lemmas about `reduce` -/

/-- Characterization of the top-down magnitude scan of `reduce`, started at
    index `j`: either nothing in `1..j` exceeds `min_val` and the scan
    yields `0`, or the scan yields `i + 1` for the greatest index
    `i ∈ [1, j]` whose magnitude exceeds `min_val`. -/
lemma reduceScan_spec (mv : ℚ) (ad : Bool) (m : List Rank) (j : Nat) :
    (reduceScan mv ad m j = 0 ∧ ∀ i, 1 ≤ i → i ≤ j → |rankMag m ad i| ≤ mv) ∨
    (∃ i, 1 ≤ i ∧ i ≤ j ∧ reduceScan mv ad m j = i + 1 ∧ mv < |rankMag m ad i| ∧
      ∀ i2, i < i2 → i2 ≤ j → |rankMag m ad i2| ≤ mv) := by
  induction j with
  | zero =>
    left
    exact ⟨rfl, fun i h1 h2 => absurd (h1.trans h2) (by omega)⟩
  | succ j ih =>
    by_cases h : mv < |rankMag m ad (j + 1)|
    · right
      refine ⟨j + 1, by omega, by omega, ?_, h, fun i2 hgt2 hle2 => (by omega : False).elim⟩
      simp [reduceScan, h]
    · have hle : |rankMag m ad (j + 1)| ≤ mv := le_of_not_lt h
      have hstep : reduceScan mv ad m (j + 1) = reduceScan mv ad m j := by
        simp [reduceScan, h]
      rcases ih with ⟨h0, hall⟩ | ⟨i, hi1, hij, heq, hgt, hafter⟩
      · left
        refine ⟨hstep.trans h0, fun i h1 h2 => ?_⟩
        rcases Nat.lt_or_ge i (j + 1) with hlt | hge
        · exact hall i h1 (by omega)
        · have hieq : i = j + 1 := by omega
          rw [hieq]
          exact hle
      · right
        refine ⟨i, hi1, by omega, hstep.trans heq, hgt, fun i2 hgt2 hle2 => ?_⟩
        rcases Nat.lt_or_ge i2 (j + 1) with hlt | hge
        · exact hafter i2 hgt2 (by omega)
        · have hieq : i2 = j + 1 := by omega
          rw [hieq]
          exact hle

/-- `reduce` with a threshold and `keep_time` unset, written via the scan. -/
lemma reduce_minval_false_eq (m : List Rank) (mr : Option Int) (mv : ℚ) (ad : Bool) :
    reduce m mr (some mv) ad false =
      some (m.take (reduceScan mv ad m ((pyslice m mr).length - 1)),
        (m.take (reduceScan mv ad m ((pyslice m mr).length - 1))).length) := by
  simp [reduce, pyslice, Int.toNat_natCast, Int.natCast_nonneg]

/-- `reduce` without a threshold and with `keep_time` unset is just the
    `max_rank` slice. -/
lemma reduce_none_false_eq (m : List Rank) (mr : Option Int) (ad : Bool) :
    reduce m mr none ad false = some (pyslice m mr, (pyslice m mr).length) := by
  simp [reduce]

/-- When the scan returns `0` and `keep_time` is set, `reduce` hits the
    `IndexError` (indexing the last element of the emptied table). -/
lemma reduce_true_scan_zero (m : List Rank) (hm : m ≠ []) (mr : Option Int) (mv : ℚ)
    (ad : Bool) (h0 : reduceScan mv ad m ((pyslice m mr).length - 1) = 0) :
    reduce m mr (some mv) ad true = none := by
  unfold reduce
  rw [if_neg (by simp [hm])]
  simp only [h0]
  simp [pyslice]

/-! ### Claim C8 -/

/-- Claim C8, counterexample: on the single-rank model `[(5, 0)]` with
    threshold `min_val = 1`, rank 0's magnitude `5` exceeds the threshold,
    yet `reduce` empties the table (the scan never examines rank 0), so the
    claim's predicted result `([(5, 0)], 1)` is not returned. -/
theorem C8_counterexample :
    reduce [((5 : ℚ), (0 : ℚ))] none (some 1) false false = some ([], 0) ∧
    (1 : ℚ) < |(5 : ℚ)| ∧
    reduce [((5 : ℚ), (0 : ℚ))] none (some 1) false false ≠
      some ([((5 : ℚ), (0 : ℚ))], 1) := by
  refine ⟨?_, by norm_num, ?_⟩ <;>
    norm_num [reduce, pyslice, reduceScan, rankMag]

/-- Claim C8, amended: with a threshold, `reduce` keeps exactly the ranks
    `0 .. k-1` where either `k = i + 1` for the first rank `i` from the top
    of the `max_rank` slice — *scanning ranks `1` and up only, never rank
    `0`* — whose (optionally `as_deriv`-scaled) magnitude strictly exceeds
    `min_val`, or `k = 0` (the model collapses to zero ranks) when no rank
    `i ≥ 1` of the slice exceeds the threshold, regardless of rank 0's
    magnitude; without a threshold only the `max_rank` slice is applied. -/
theorem C8_reduce_scan_skips_rank_zero (m : List Rank) (mr : Option Int) (mv : ℚ)
    (ad : Bool) (hm : m ≠ []) :
    (∃ k, reduce m mr (some mv) ad false = some (m.take k, (m.take k).length) ∧
      ((k = 0 ∧ ∀ i, 1 ≤ i → i < (pyslice m mr).length → |rankMag m ad i| ≤ mv) ∨
       (2 ≤ k ∧ k ≤ (pyslice m mr).length ∧ mv < |rankMag m ad (k - 1)| ∧
        ∀ i, k ≤ i → i < (pyslice m mr).length → |rankMag m ad i| ≤ mv))) ∧
    reduce m mr none ad false = some (pyslice m mr, (pyslice m mr).length) := by
  constructor
  · rcases reduceScan_spec mv ad m ((pyslice m mr).length - 1) with
      ⟨h0, hall⟩ | ⟨i, hi1, hij, heq, hgt, hafter⟩
    · refine ⟨0, ?_, Or.inl ⟨rfl, fun i h1 h2 => hall i h1 (by omega)⟩⟩
      rw [reduce_minval_false_eq, h0]
    · refine ⟨i + 1, ?_, Or.inr ⟨by omega, by omega, ?_, ?_⟩⟩
      · rw [reduce_minval_false_eq, heq]
      · simpa using hgt
      · intro i2 hge hlt
        exact hafter i2 (by omega) (by omega)
  · exact reduce_none_false_eq m mr ad

/-- Witness for C8 at the model `[(5, 0), (3, 1), (1/2, 2)]` with
    `min_val = 1`: rank 1 (value `3`) is the first from the top to exceed
    the threshold, so two ranks survive. -/
theorem C8_witness :
    ∃ k, reduce [((5 : ℚ), (0 : ℚ)), ((3 : ℚ), (1 : ℚ)), ((1 / 2 : ℚ), (2 : ℚ))]
        none (some 1) false false =
      some (([((5 : ℚ), (0 : ℚ)), ((3 : ℚ), (1 : ℚ)), ((1 / 2 : ℚ), (2 : ℚ))] : List Rank).take k,
        (([((5 : ℚ), (0 : ℚ)), ((3 : ℚ), (1 : ℚ)), ((1 / 2 : ℚ), (2 : ℚ))] : List Rank).take k).length) := by
  obtain ⟨⟨k, hk, -⟩, -⟩ :=
    C8_reduce_scan_skips_rank_zero
      [((5 : ℚ), (0 : ℚ)), ((3 : ℚ), (1 : ℚ)), ((1 / 2 : ℚ), (2 : ℚ))] none 1 false (by simp)
  exact ⟨k, hk⟩

/-! ### Claim C10 -/

/-- Claim C10: on a non-empty model, `reduce` with `keep_time=True` and a
    threshold that no scanned rank (rank `1` and up of the slice) exceeds
    empties the table and then raises an uncaught `IndexError` indexing the
    last element of the now-empty rank list (modelled as `none`): it is only
    well-defined when at least one rank survives the cut. -/
theorem C10_reduce_keeptime_empty_raises (m : List Rank) (mr : Option Int) (mv : ℚ)
    (ad : Bool) (hm : m ≠ [])
    (hall : ∀ i, 1 ≤ i → i < (pyslice m mr).length → |rankMag m ad i| ≤ mv) :
    reduce m mr (some mv) ad true = none := by
  rcases reduceScan_spec mv ad m ((pyslice m mr).length - 1) with
    ⟨h0, -⟩ | ⟨i, hi1, hij, heq, hgt, hafter⟩
  · exact reduce_true_scan_zero m hm mr mv ad h0
  · exfalso
    have hn : 1 ≤ (pyslice m mr).length := by omega
    exact absurd (hall i hi1 (by omega)) (not_le.mpr hgt)

/-- Witness for C10 at the single-rank model `[(7, 0)]` with `min_val = 2`:
    the scan range `1..0` is empty, so the table is emptied and the final
    `keep_time` restore has nothing to index. -/
theorem C10_witness :
    ([((7 : ℚ), (0 : ℚ))] : List Rank) ≠ [] ∧
    reduce [((7 : ℚ), (0 : ℚ))] none (some 2) false true = none := by
  refine ⟨by simp, C10_reduce_keeptime_empty_raises _ none 2 false (by simp) ?_⟩
  intro i h1 h2
  simp only [pyslice, List.length_singleton] at h2
  omega

/-! ### Helper lemmas about `__add__`, `__neg__`, `__sub__` -/

/-- Indexing a drop indexes the original list, with offset. -/
lemma getD_drop {α : Type} (l : List α) (n j : Nat) (d : α) :
    (l.drop n).getD j d = l.getD (n + j) d := by
  rw [List.getD_eq_getElem?_getD, List.getD_eq_getElem?_getD, List.getElem?_drop]

/-- The zip loop of `__add__` aborts with `none` iff some shared index holds
    differing times. -/
lemma zipAddAux_none_iff : ∀ (a b : List Rank),
    zipAddAux a b = none ↔
      ∃ i, i < min a.length b.length ∧ (a.getD i (0, 0)).2 ≠ (b.getD i (0, 0)).2 := by
  intro a
  induction a with
  | nil => intro b; simp [zipAddAux]
  | cons ra a ih =>
    intro b
    cases b with
    | nil => simp [zipAddAux]
    | cons rb b =>
      obtain ⟨v, t⟩ := ra
      obtain ⟨v1, t1⟩ := rb
      by_cases hne : t = t1
      · have hcond : ¬(t ≠ t1) := fun hc => hc hne
        simp only [zipAddAux, if_neg hcond, Option.map_eq_none', ih b]
        constructor
        · rintro ⟨i, hi, hne2⟩
          refine ⟨i + 1, ?_, ?_⟩
          · simp only [List.length_cons]
            omega
          · simpa using hne2
        · rintro ⟨i, hi, hne2⟩
          cases i with
          | zero =>
            exfalso
            apply hne2
            simpa using hne
          | succ j =>
            refine ⟨j, ?_, ?_⟩
            · simp only [List.length_cons] at hi
              omega
            · simpa using hne2
      · simp only [zipAddAux, if_pos hne]
        constructor
        · intro _
          refine ⟨0, ?_, by simpa using hne⟩
          simp only [List.length_cons]
          omega
        · intro _
          trivial

/-- The zip loop of `__add__` on success: one entry per shared index,
    holding the sum of values and the left operand's time. -/
lemma zipAddAux_some_spec : ∀ (a b r : List Rank), zipAddAux a b = some r →
    r.length = min a.length b.length ∧
    ∀ i, i < min a.length b.length →
      r.getD i (0, 0) = ((a.getD i (0, 0)).1 + (b.getD i (0, 0)).1, (a.getD i (0, 0)).2) := by
  intro a
  induction a with
  | nil =>
    intro b r h
    simp only [zipAddAux, Option.some.injEq] at h
    rw [← h]
    simp
  | cons ra a ih =>
    intro b r h
    cases b with
    | nil =>
      simp only [zipAddAux, Option.some.injEq] at h
      rw [← h]
      simp
    | cons rb b =>
      obtain ⟨v, t⟩ := ra
      obtain ⟨v1, t1⟩ := rb
      by_cases hne : t = t1
      · have hcond : ¬(t ≠ t1) := fun hc => hc hne
        simp only [zipAddAux, if_neg hcond] at h
        rcases hz : zipAddAux a b with - | r0
        · rw [hz] at h
          exact absurd h (by simp)
        · rw [hz] at h
          simp only [Option.map_some', Option.some.injEq] at h
          obtain ⟨hlen0, hspec0⟩ := ih b r0 hz
          rw [← h]
          constructor
          · simp only [List.length_cons, hlen0]
            omega
          · intro i hi
            cases i with
            | zero => simp
            | succ j =>
              simp only [List.getD_cons_succ]
              exact hspec0 j (by simp only [List.length_cons] at hi; omega)
      · simp only [zipAddAux, if_pos hne] at h
        exact absurd h (by simp)

/-- `__neg__` keeps the rank count. -/
lemma negA_length (b : List Rank) : (negA b).length = b.length :=
  List.length_map b _

/-- Pointwise effect of `__neg__` (the default survives because `-0 = 0`). -/
lemma negA_getD (b : List Rank) (i : Nat) :
    (negA b).getD i (0, 0) = (-(b.getD i (0, 0)).1, (b.getD i (0, 0)).2) := by
  rw [List.getD_eq_getElem?_getD, List.getD_eq_getElem?_getD]
  unfold negA
  rw [List.getElem?_map]
  cases h : b[i]? with
  | none => simp
  | some r => simp

/-- `__add__` fails iff some shared index holds differing times. -/
lemma addA_none_iff (a b : List Rank) :
    addA a b = none ↔ ∃ i, i < min a.length b.length ∧
      (a.getD i (0, 0)).2 ≠ (b.getD i (0, 0)).2 := by
  rcases hz : zipAddAux a b with - | r
  · have ha : addA a b = none := by
      unfold addA
      rw [hz]
    rw [ha]
    constructor
    · intro _
      exact (zipAddAux_none_iff a b).mp hz
    · intro _
      rfl
  · have ha : addA a b = (if a.length ≠ b.length then
        some (r ++ (if a.length > b.length then a else b).drop r.length) else some r) := by
      unfold addA
      rw [hz]
    constructor
    · intro hc
      rw [ha] at hc
      by_cases hl : a.length ≠ b.length
      · rw [if_pos hl] at hc
        exact absurd hc (by simp)
      · rw [if_neg hl] at hc
        exact absurd hc (by simp)
    · intro hex
      have hn := (zipAddAux_none_iff a b).mpr hex
      rw [hz] at hn
      exact absurd hn (by simp)

/-- `__add__` on success: `max`-length result, elementwise sums on shared
    indices, the longer operand's remainder beyond them. -/
lemma addA_some_spec (a b res : List Rank) (h : addA a b = some res) :
    res.length = max a.length b.length ∧
    (∀ i, i < min a.length b.length →
      res.getD i (0, 0) = ((a.getD i (0, 0)).1 + (b.getD i (0, 0)).1, (a.getD i (0, 0)).2)) ∧
    (∀ i, min a.length b.length ≤ i →
      res.getD i (0, 0) = (if a.length > b.length then a else b).getD i (0, 0)) := by
  rcases hz : zipAddAux a b with - | r
  · have ha : addA a b = none := by
      unfold addA
      rw [hz]
    rw [ha] at h
    exact absurd h (by simp)
  · have ha : addA a b = (if a.length ≠ b.length then
        some (r ++ (if a.length > b.length then a else b).drop r.length) else some r) := by
      unfold addA
      rw [hz]
    rw [ha] at h
    obtain ⟨hrlen, hrspec⟩ := zipAddAux_some_spec a b r hz
    by_cases hl : a.length ≠ b.length
    · rw [if_pos hl] at h
      simp only [Option.some.injEq] at h
      have hremlen : (if a.length > b.length then a else b).length = max a.length b.length := by
        by_cases hgt : a.length > b.length
        · rw [if_pos hgt]
          omega
        · rw [if_neg hgt]
          omega
      refine ⟨?_, ?_, ?_⟩
      · rw [← h, List.length_append, List.length_drop, hrlen, hremlen]
        omega
      · intro i hi
        rw [← h, List.getD_append _ _ _ _ (by rw [hrlen]; omega)]
        exact hrspec i hi
      · intro i hi
        rw [← h, List.getD_append_right _ _ _ _ (by rw [hrlen]; omega), getD_drop]
        congr 1
        rw [hrlen]
        omega
    · rw [if_neg hl] at h
      push_neg at hl
      simp only [Option.some.injEq] at h
      refine ⟨?_, ?_, ?_⟩
      · rw [← h, hrlen]
        omega
      · intro i hi
        rw [← h]
        exact hrspec i hi
      · intro i hi
        rw [← h]
        have h1 : r.getD i (0, 0) = (0, 0) := by
          rw [List.getD_eq_getElem?_getD, List.getElem?_eq_none (by rw [hrlen]; omega)]
          rfl
        have hif : (if a.length > b.length then a else b) = b := if_neg (by omega)
        have h2 : b.getD i (0, 0) = (0, 0) := by
          rw [List.getD_eq_getElem?_getD, List.getElem?_eq_none (by omega)]
          rfl
        rw [h1, hif, h2]

/-! ### Claim C9 -/

/-- Claim C9, counterexample: subtracting `B = [(1, 0), (2, 1)]` from
    `A = [(1, 0)]` appends `B`'s excess rank *negated* (`(-2, 1)`), not
    unchanged (`(2, 1)`) as the claim states. -/
theorem C9_counterexample :
    subA [((1 : ℚ), (0 : ℚ))] [((1 : ℚ), (0 : ℚ)), ((2 : ℚ), (1 : ℚ))] =
      some [(0, 0), (-2, 1)] ∧
    subA [((1 : ℚ), (0 : ℚ))] [((1 : ℚ), (0 : ℚ)), ((2 : ℚ), (1 : ℚ))] ≠
      some [(0, 0), (2, 1)] := by
  constructor <;> norm_num [subA, addA, negA, zipAddAux]

/-- Claim C9, amended: `A + B` (and `A - B`) fails iff some index shared by
    both tables holds differing times (no re-alignment; the operands are
    values, so they are unmodified); on success the shared indices hold the
    elementwise sum (difference) of values with `A`'s times, and the longer
    operand's excess ranks are appended unchanged for `add` — for `subtract`
    they are appended unchanged only when `A` is longer, and appended
    *negated* when `B` is longer. -/
theorem C9_add_sub_alignment (a b : List Rank) :
    (addA a b = none ↔ ∃ i, i < min a.length b.length ∧
        (a.getD i (0, 0)).2 ≠ (b.getD i (0, 0)).2) ∧
    (subA a b = none ↔ ∃ i, i < min a.length b.length ∧
        (a.getD i (0, 0)).2 ≠ (b.getD i (0, 0)).2) ∧
    (∀ res, addA a b = some res →
      res.length = max a.length b.length ∧
      (∀ i, i < min a.length b.length →
        res.getD i (0, 0) = ((a.getD i (0, 0)).1 + (b.getD i (0, 0)).1, (a.getD i (0, 0)).2)) ∧
      (∀ i, min a.length b.length ≤ i → b.length < a.length →
        res.getD i (0, 0) = a.getD i (0, 0)) ∧
      (∀ i, min a.length b.length ≤ i → ¬(b.length < a.length) →
        res.getD i (0, 0) = b.getD i (0, 0))) ∧
    (∀ res, subA a b = some res →
      res.length = max a.length b.length ∧
      (∀ i, i < min a.length b.length →
        res.getD i (0, 0) = ((a.getD i (0, 0)).1 - (b.getD i (0, 0)).1, (a.getD i (0, 0)).2)) ∧
      (∀ i, min a.length b.length ≤ i → b.length < a.length →
        res.getD i (0, 0) = a.getD i (0, 0)) ∧
      (∀ i, min a.length b.length ≤ i → ¬(b.length < a.length) →
        res.getD i (0, 0) = (-(b.getD i (0, 0)).1, (b.getD i (0, 0)).2))) := by
  have hsubiff : subA a b = none ↔ ∃ i, i < min a.length b.length ∧
      (a.getD i (0, 0)).2 ≠ (b.getD i (0, 0)).2 := by
    unfold subA
    rw [addA_none_iff a (negA b), negA_length]
    constructor
    · rintro ⟨i, hi, hne⟩
      rw [negA_getD] at hne
      exact ⟨i, hi, hne⟩
    · rintro ⟨i, hi, hne⟩
      refine ⟨i, hi, ?_⟩
      rw [negA_getD]
      exact hne
  refine ⟨addA_none_iff a b, hsubiff, ?_, ?_⟩
  · intro res h
    obtain ⟨hlen, hshared, hexcess⟩ := addA_some_spec a b res h
    refine ⟨hlen, hshared, ?_, ?_⟩
    · intro i hi hba
      rw [hexcess i hi, if_pos hba]
    · intro i hi hba
      rw [hexcess i hi, if_neg hba]
  · intro res h
    obtain ⟨hlen, hshared, hexcess⟩ := addA_some_spec a (negA b) res h
    rw [negA_length] at hlen hshared hexcess
    refine ⟨hlen, ?_, ?_, ?_⟩
    · intro i hi
      rw [hshared i hi, negA_getD, ← sub_eq_add_neg]
    · intro i hi hba
      rw [hexcess i hi, if_pos hba]
    · intro i hi hba
      rw [hexcess i hi, if_neg hba, negA_getD]

/-- Witness for C9: addition of `[(1, 0)]` and `[(2, 5)]` fails because the
    shared rank 0 holds differing times. -/
theorem C9_witness :
    addA [((1 : ℚ), (0 : ℚ))] [((2 : ℚ), (5 : ℚ))] = none := by
  have h := (C9_add_sub_alignment [((1 : ℚ), (0 : ℚ))] [((2 : ℚ), (5 : ℚ))]).1
  exact h.mpr ⟨0, by norm_num, by norm_num⟩

end PolyApprox
